import Mathlib

/-!
Verification of the SSH-honeypot ML analysis pipeline
(`ssh_honeypy/ml/command_analyzer.py` and `ssh_honeypy/ml/integration.py`).

The Python code is shallowly embedded: pure methods become Lean functions,
the mutable classifier/analyzer state is passed explicitly, the filesystem
(model artifact, snapshot directory, log file) is modelled as explicit data,
and exceptions become `Except`/injected fault flags that mirror exactly the
`try`/`except` structure of the source.
-/

/-- The six fixed intent categories from `CommandClassifier.__init__`
(`self.categories`). -/
inductive CategoryLabel where
  | reconnaissance
  | persistence
  | privilege_escalation
  | lateral_movement
  | data_exfiltration
  | miscellaneous
deriving DecidableEq, Repr, Inhabited

/-- The class labels in the order sklearn keeps them (`pipeline.classes_` is
the sorted unique training labels; alphabetical order of the label strings). -/
def classesSorted : List CategoryLabel :=
  [.data_exfiltration, .lateral_movement, .miscellaneous,
   .persistence, .privilege_escalation, .reconnaissance]

/-- Character windows of length `n` of a document, in order: the `n`-grams
extracted by `CountVectorizer(analyzer='char')` for one value of `n`. -/
def windows (n : Nat) (l : List Char) : List (List Char) :=
  (List.range (l.length + 1 - n)).map (fun i => (l.drop i).take n)

/-- All character n-grams of lengths 1 to 3, matching
`CountVectorizer(analyzer='char', ngram_range=(1, 3))`. -/
def ngrams (l : List Char) : List (List Char) :=
  windows 1 l ++ windows 2 l ++ windows 3 l

/-- Lowercased character sequence of a command: `CountVectorizer` lowercases
each document before n-gram extraction (`lowercase=True` default). -/
def docOf (s : String) : List Char :=
  s.toList.map Char.toLower

/-- Modelled from the spec: the sklearn `Pipeline` of
`CountVectorizer(analyzer='char', ngram_range=(1, 3))` and `MultinomialNB`
built in `CommandClassifier.__init__` is external library state; per spec
§4.1 it is "a multinomial generative model over n-gram counts — class
conditional feature likelihoods estimated with additive (Laplace-style)
smoothing from training counts, combined with class priors via Bayes' rule".
`vocab` is the fitted n-gram vocabulary, `prior` the class prior and `theta`
the smoothed per-class feature likelihood. Probabilities are exact rationals
in place of floats. -/
structure NBPipeline where
  vocab : List (List Char)
  prior : CategoryLabel → ℚ
  theta : CategoryLabel → List Char → ℚ

/-- Unnormalized posterior weight of class `k` for a command: prior times the
product of feature likelihoods raised to the feature counts (the exponential
of sklearn's joint log likelihood). -/
def jointScore (p : NBPipeline) (cmd : String) (k : CategoryLabel) : ℚ :=
  p.prior k * (p.vocab.map (fun g => p.theta k g ^ (ngrams (docOf cmd)).count g)).prod

/-- Normalizing constant of `predict_proba`: the sum of the class weights. -/
def totalScore (p : NBPipeline) (cmd : String) : ℚ :=
  (classesSorted.map (jointScore p cmd)).sum

/-- Posterior probability of class `k` for a command, as computed by
`pipeline.predict_proba` (joint weight normalized over the classes). -/
def predictProba (p : NBPipeline) (cmd : String) (k : CategoryLabel) : ℚ :=
  jointScore p cmd k / totalScore p cmd

/-- First element of `b :: l` maximizing `f`, mirroring `np.argmax` over the
class scores (ties resolved in favor of the earliest class). -/
def argmaxBy (f : CategoryLabel → ℚ) (b : CategoryLabel) : List CategoryLabel → CategoryLabel
  | [] => b
  | k :: ks => if f b < f k then argmaxBy f k ks else argmaxBy f b ks

/-- The category returned by `pipeline.predict([command])[0]`:
`classes_[argmax(joint log likelihood)]`. -/
def predictCat (p : NBPipeline) (cmd : String) : CategoryLabel :=
  argmaxBy (jointScore p cmd) .data_exfiltration
    [.lateral_movement, .miscellaneous, .persistence, .privilege_escalation, .reconnaissance]

/-- Maximum of a list of rationals, mirroring Python's `max(probabilities)`
(`0` for the empty list, which never occurs: there are six classes). -/
def listMaxQ : List ℚ → ℚ
  | [] => 0
  | x :: xs => xs.foldl max x

/-- Result dictionary of `CommandClassifier.predict`: the command, the
predicted category, `confidence = max(probabilities)` and
`all_probabilities = dict(zip(self.pipeline.classes_, probabilities))`
kept as an ordered association list. -/
structure Prediction where
  command : String
  category : CategoryLabel
  confidence : ℚ
  all_probabilities : List (CategoryLabel × ℚ)
deriving DecidableEq, Repr

/-- `CommandClassifier.predict` (command_analyzer.py lines 85-105). -/
def predict (p : NBPipeline) (cmd : String) : Prediction :=
  { command := cmd
    category := predictCat p cmd
    confidence := listMaxQ (classesSorted.map (predictProba p cmd))
    all_probabilities := classesSorted.map (fun k => (k, predictProba p cmd k)) }

/-- `CommandClassifier.batch_predict` (lines 107-117):
`[self.predict(cmd) for cmd in commands]`. -/
def batch_predict (p : NBPipeline) (commands : List String) : List Prediction :=
  commands.map (predict p)

/-- Error raised by fitting on invalid input (the spec's `InvalidInput`;
sklearn raises `ValueError` on inconsistent sample counts). -/
inductive FitError where
  | invalidInput
deriving DecidableEq, Repr

/-- Modelled from the spec: `pipeline.fit(commands, categories)` is external
sklearn code; per spec §4.1 `train` "replaces the current model state by
fitting on the supplied paired lists (commands and categories must be equal
length; behavior on mismatched lengths is an error condition — fails with
InvalidInput). This is a full refit, not incremental." On equal lengths the
multinomial model of spec §4.1 is fitted: vocabulary of all char 1-3-grams of
the lowercased documents, class priors from label frequencies, and Laplace
(add-one) smoothed per-class feature likelihoods. -/
def pipelineFit (commands : List String) (categories : List CategoryLabel) :
    Except FitError NBPipeline :=
  if commands.length = categories.length then
    let docs := commands.map docOf
    let vocab := (docs.flatMap ngrams).dedup
    let pairs := docs.zip categories
    let featCount := fun (k : CategoryLabel) (g : List Char) =>
      ((pairs.filter (fun dc => dc.2 = k)).map (fun dc => (ngrams dc.1).count g)).sum
    let classTotal := fun (k : CategoryLabel) => (vocab.map (featCount k)).sum
    .ok { vocab := vocab
          prior := fun k => (categories.count k : ℚ) / (categories.length : ℚ)
          theta := fun k g =>
            ((featCount k g : ℚ) + 1) / ((classTotal k : ℚ) + (vocab.length : ℚ)) }
  else
    .error .invalidInput

/-- `CommandClassifier.train` (lines 119-128): `self.pipeline.fit(commands,
categories)`, a full refit discarding the previous pipeline state; on an
error no new state is produced and the caller's state is left as it was. -/
def train (_self : NBPipeline) (commands : List String) (categories : List CategoryLabel) :
    Except FitError NBPipeline :=
  pipelineFit commands categories

/-- The seed corpus `self.category_examples` from `CommandClassifier.__init__`,
flattened in dict insertion order to the paired `(X, y)` lists built by
`_train_initial_model`. -/
def category_examples : List (CategoryLabel × List String) :=
  [(.reconnaissance,
    ["ls", "pwd", "whoami", "id", "uname", "ps", "netstat", "ifconfig", "cat /etc/passwd",
     "ls -la", "ls -l", "find", "w", "who", "last", "finger", "arp -a", "cat /etc/resolv.conf"]),
   (.persistence,
    ["crontab", "at", "ssh-keygen", "useradd", "chmod +x", "nohup",
     "touch /var/spool/cron", "echo \"* * * * *\"", "chmod 644 .ssh/authorized_keys"]),
   (.privilege_escalation,
    ["sudo", "su", "chmod u+s", "find / -perm -4000", "chmod 4755", "pkexec",
     "sudo -l", "sudo -i", "su -", "perl -e", "python -c", "gcc exploit.c"]),
   (.lateral_movement,
    ["ssh", "scp", "nc", "rsync", "ssh-copy-id", "sftp",
     "ssh-keyscan", "ssh-agent", "telnet", "rlogin"]),
   (.data_exfiltration,
    ["tar", "zip", "curl -O", "wget", "scp", "base64", "gzip", "bzip2",
     "dd if=", "cat file | nc", "rm -rf", "shred", "sftp"]),
   (.miscellaneous,
    ["echo", "cd", "touch", "mkdir", "rm", "grep", "clear", "cat", "more",
     "less", "head", "tail", "mv", "cp", "man", "info", "vi", "nano"])]

/-- Training inputs assembled by `_train_initial_model` (lines 69-83). -/
def initialX : List String :=
  category_examples.flatMap (fun kc => kc.2)

/-- Training labels assembled by `_train_initial_model`. -/
def initialY : List CategoryLabel :=
  category_examples.flatMap (fun kc => kc.2.map (fun _ => kc.1))

/-- The pipeline produced by `_train_initial_model` (the two lists have equal
length by construction, so the fit succeeds; `.invalidInput` is unreachable). -/
def initial_pipeline : NBPipeline :=
  match pipelineFit initialX initialY with
  | .ok p => p
  | .error _ => { vocab := [], prior := fun _ => 0, theta := fun _ _ => 0 }

/-- Modelled from the spec: the on-disk model artifact store (`pickle` files)
is external to the repository; per spec §3 a `ModelArtifact` is
"round-trippable to/from a byte stream", so files are modelled as a map from
paths to the stored pipeline. -/
def FileStore : Type :=
  String → Option NBPipeline

/-- `CommandClassifier.save_model` (lines 130-138): `pickle.dump` of the
pipeline at `path`. -/
def save_model (fs : FileStore) (path : String) (p : NBPipeline) : FileStore :=
  fun q => if q = path then some p else fs q

/-- `CommandClassifier.load_model` (lines 140-152): `pickle.load` of the
pipeline at `path`; on any load failure the error is caught, logged, and the
classifier falls back to `_train_initial_model()`. -/
def load_model (fs : FileStore) (path : String) : NBPipeline :=
  match fs path with
  | some p => p
  | none => initial_pipeline

/-- Positivity of the model weights over the six classes, which holds for any
additively smoothed fit with every class present (spec §4.1): all class
priors and all in-vocabulary feature likelihoods are positive. -/
def Wellformed (p : NBPipeline) : Prop :=
  ∀ k ∈ classesSorted, 0 < p.prior k ∧ ∀ g ∈ p.vocab, 0 < p.theta k g

instance : DecidablePred Wellformed := fun _ =>
  List.decidableBAll _ classesSorted

/-- Stable insert of `x` into a list descending by `key`: `x` goes in front of
the first element whose key is at most `key x`. -/
def insertDescBy {α : Type} (key : α → Nat) (x : α) : List α → List α
  | [] => [x]
  | y :: ys => if key y ≤ key x then x :: y :: ys else y :: insertDescBy key x ys

/-- Stable insertion sort, descending by `key`: the order produced by pandas
counting (descending counts) and by `list.sort(key=..., reverse=True)`. -/
def sortDescBy {α : Type} (key : α → Nat) : List α → List α
  | [] => []
  | x :: xs => insertDescBy key x (sortDescBy key xs)

/-- Modelled from the spec: `pd.Series(xs).value_counts().to_dict()` is
external pandas code; it yields one entry per distinct observed value with
its occurrence count, ordered by descending count (the spec leaves the order
among tied counts unspecified; this embedding uses one stable order, and no
theorem below depends on the tie order). -/
def value_counts {α : Type} [DecidableEq α] (xs : List α) : List (α × Nat) :=
  sortDescBy (fun kv => kv.2) (xs.dedup.map (fun k => (k, xs.count k)))

/-- Python's `max(items, key=lambda x: x[1])` over non-empty `b :: l`: the
first pair with maximal second component (strict improvement replaces). -/
def maxByValAux (b : CategoryLabel × ℚ) : List (CategoryLabel × ℚ) → CategoryLabel × ℚ
  | [] => b
  | y :: ys => if b.2 < y.2 then maxByValAux y ys else maxByValAux b ys

/-- Key of the maximal pair, as in
`max(category_percentages.items(), key=lambda x: x[1])[0]` (Python `max`
raises on an empty sequence; that call site always has a non-empty dict, so
the `[]` default is unreachable). -/
def maxByVal : List (CategoryLabel × ℚ) → CategoryLabel
  | [] => .miscellaneous
  | x :: xs => (maxByValAux x xs).1

/-- The populated report built by `CommandClassifier.get_insights`
(lines 191-197), with dictionaries as ordered association lists and the
float percentages as exact rationals. -/
structure InsightReport where
  total_commands : Nat
  category_counts : List (CategoryLabel × Nat)
  category_percentages : List (CategoryLabel × ℚ)
  top_commands_by_category : List (CategoryLabel × List (String × Nat))
  attack_focus : CategoryLabel
deriving DecidableEq, Repr

/-- Return value of `get_insights`: either the status-only dictionary
`{"status": "No commands found"}` or a populated report. -/
inductive InsightsResult where
  | noData
  | report (r : InsightReport)
deriving DecidableEq, Repr

/-- `CommandClassifier.get_insights` (lines 154-197). The
`commands_by_category` loop builds a dict keyed by category in first
occurrence order whose value collects, in order, the commands predicted into
that category; it is written here as a map over the distinct categories with
a filter, which produces the same association list. -/
def get_insights (p : NBPipeline) (commands : List String) : InsightsResult :=
  if commands = [] then .noData else
  let predictions := batch_predict p commands
  let categories := predictions.map (fun pr => pr.category)
  let category_counts := value_counts categories
  let total := categories.length
  let category_percentages :=
    category_counts.map (fun kv => (kv.1, ((kv.2 : ℚ) / (total : ℚ)) * 100))
  let commands_by_category :=
    categories.dedup.map (fun cat =>
      (cat, (predictions.filter (fun pr => pr.category = cat)).map (fun pr => pr.command)))
  let top_commands :=
    commands_by_category.map (fun cl => (cl.1, (value_counts cl.2).take 5))
  .report
    { total_commands := total
      category_counts := category_counts
      category_percentages := category_percentages
      top_commands_by_category := top_commands
      attack_focus := maxByVal category_percentages }

/-- The single quote character, written by code point to keep it out of the
string literals below. -/
def squote : Char :=
  Char.ofNat 39

/-- The literal `Command b'` that both the substring guard and the regex
`Command b'([^']*)'executed by (\d+\.\d+\.\d+\.\d+)` of
`parse_command_log` start with. -/
def cmdMarker : List Char :=
  "Command b".toList ++ [squote]

/-- Consume `\d+\.` from the front: at least one decimal digit followed by a
literal dot; returns the rest on success. -/
def digitsDot (l : List Char) : Option (List Char) :=
  let d := l.takeWhile Char.isDigit
  if d = [] then none
  else
    match l.drop d.length with
    | c :: r => if c = '.' then some r else none
    | [] => none

/-- Does `\d+\.\d+\.\d+\.\d+` match at the front of `l` (trailing characters
are allowed, as the regex is unanchored)? -/
def ipv4At (l : List Char) : Bool :=
  match digitsDot l with
  | none => false
  | some r1 =>
    match digitsDot r1 with
    | none => false
    | some r2 =>
      match digitsDot r2 with
      | none => false
      | some r3 => r3.takeWhile Char.isDigit ≠ []

/-- Attempt the regex `Command b'([^']*)'executed by (\d+\.\d+\.\d+\.\d+)` at
one position: the literal marker, then the capture of non-quote characters up
to the closing quote, then the literal `executed by ` and the IPv4 digits.
Returns the capture group on success. -/
def matchAt (l : List Char) : Option String :=
  if cmdMarker.isPrefixOf l then
    let rest := l.drop cmdMarker.length
    let cap := rest.takeWhile (fun c => c ≠ squote)
    match rest.drop cap.length with
    | c :: rest2 =>
      if c = squote ∧ "executed by ".toList.isPrefixOf rest2 ∧
          ipv4At (rest2.drop "executed by ".toList.length) then
        some (String.mk cap)
      else none
    | [] => none
  else none

/-- `re.search` for the fixed pattern: try a match at every position, left to
right, returning the first capture. A position can only succeed at an
occurrence of the marker, so this also subsumes the `"Command b'" in line`
guard of the source. -/
def searchFrom : List Char → Option String
  | [] => none
  | c :: rest =>
    match matchAt (c :: rest) with
    | some s => some s
    | none => searchFrom rest

/-- Python `str.strip()`: remove leading and trailing whitespace. -/
def stripChars (l : List Char) : List Char :=
  ((l.dropWhile Char.isWhitespace).reverse.dropWhile Char.isWhitespace).reverse

/-- Processing of a single log line inside the `parse_command_log` loop:
strip, then search for the command pattern; `some` is a line that appends one
command, `none` a silently skipped line. -/
def parseLine (line : String) : Option String :=
  searchFrom (stripChars line.toList)

/-- State of the honeypot log file as seen by one `parse_command_log` call:
absent, fully readable, or raising mid-read after yielding a prefix of its
lines (e.g. a decode error; the `except` branch then returns the commands
accumulated so far). -/
inductive LogFile where
  | missing
  | ok (lines : List String)
  | failAfter (lines : List String)
deriving DecidableEq, Repr

/-- Commands extracted from the lines the loop saw, in file order. -/
def extract_commands (lines : List String) : List String :=
  lines.filterMap parseLine

/-- `HoneypotMLAnalyzer.parse_command_log` (integration.py lines 50-76):
missing file returns `[]` before opening; a successful read extracts from
every line; a read failure mid-iteration is caught by the `except` branch
and the commands accumulated from the yielded prefix are returned. -/
def parse_command_log : LogFile → List String
  | .missing => []
  | .ok lines => extract_commands lines
  | .failAfter lines => extract_commands lines

/-- `MIN_COMMANDS_FOR_ANALYSIS` from config.py. -/
def MIN_COMMANDS_FOR_ANALYSIS : Nat := 10

/-- `MAX_STORED_INSIGHTS` from config.py. -/
def MAX_STORED_INSIGHTS : Nat := 20

/-- One timestamped snapshot `insights_<name>.json` in the analytics
directory: the timestamp in its filename, its modification time, and the JSON
content written into it. -/
structure SnapFile where
  name : Nat
  mtime : Nat
  content : InsightsResult
deriving DecidableEq, Repr

/-- The analytics directory: the timestamped snapshot files (matched by the
glob `insights_*.json`) plus the separate fixed-name `latest_insights.json`,
which the glob does not match. -/
structure SnapStore where
  snaps : List SnapFile
  latest : Option InsightsResult
deriving DecidableEq, Repr

/-- Writing `insights_<t>.json`: `open(..., 'w')` truncates an existing file
of the same name (same-second rerun) or creates a new one; the written file's
modification time is the write time `t`. -/
def writeInsightsFile (snaps : List SnapFile) (t : Nat) (c : InsightsResult) :
    List SnapFile :=
  if snaps.any (fun f => f.name = t) then
    snaps.map (fun f => if f.name = t then { f with mtime := t, content := c } else f)
  else
    snaps ++ [{ name := t, mtime := t, content := c }]

/-- `HoneypotMLAnalyzer._cleanup_old_insights` (lines 112-126): glob the
snapshot files, sort by modification time descending, and when there are
more than `MAX_STORED_INSIGHTS` delete every file past that prefix. -/
def cleanup_old_insights (s : SnapStore) : SnapStore :=
  let insight_files := sortDescBy (fun f => f.mtime) s.snaps
  if MAX_STORED_INSIGHTS < insight_files.length then
    { s with snaps := insight_files.take MAX_STORED_INSIGHTS }
  else s

/-- Injected exceptions for one `analyze_logs` cycle, mirroring where the
source's `try` blocks sit: `insightsFault` is an unexpected exception raised
inside the `self.classifier.get_insights(commands)` call (classification or
aggregation), which the source does not wrap in any `try`; `saveFault` is an
exception raised at the start of the persistence `try` block (lines 96-108),
whose `except` catches and logs it. Faults in parsing are part of `LogFile`
and are caught inside `parse_command_log` itself. -/
structure Faults where
  insightsFault : Bool
  saveFault : Bool
deriving DecidableEq, Repr

/-- Return value of `analyze_logs`: the insufficient-data status dictionary
`{"status": "Insufficient commands found (n). ..."}` or the insights. -/
inductive AnalyzeResult where
  | insufficient (found : Nat)
  | analyzed (r : InsightsResult)
deriving DecidableEq, Repr

/-- `HoneypotMLAnalyzer.analyze_logs` (lines 78-110) with the analytics
directory passed as explicit state and `time.time()` as `now`. An
uncaught exception is `Except.error ()`; `.ok` carries the directory state
after the cycle and the returned dictionary. The persistence `try` block
(snapshot write, latest write, cleanup) catches its own failures, so a
`saveFault` leaves the store untouched and still returns the insights. -/
def analyze_logs (p : NBPipeline) (log : LogFile) (store : SnapStore) (now : Nat)
    (f : Faults) : Except Unit (SnapStore × AnalyzeResult) :=
  let commands := parse_command_log log
  if commands = [] ∨ commands.length < MIN_COMMANDS_FOR_ANALYSIS then
    .ok (store, .insufficient commands.length)
  else if f.insightsFault then
    .error ()
  else
    let insights := get_insights p commands
    if f.saveFault then
      .ok (store, .analyzed insights)
    else
      let snaps1 := writeInsightsFile store.snaps now insights
      let store2 : SnapStore := { snaps := snaps1, latest := some insights }
      .ok (cleanup_old_insights store2, .analyzed insights)

/-- One iteration of the loop in `start_background_analysis` (lines 138-145):
`analyze_logs` inside `try`, whose `except` catches and logs any exception,
leaving the directory state as it was; the loop then always reaches the
`finally` sleep and continues. -/
def background_iteration (p : NBPipeline) (log : LogFile) (store : SnapStore)
    (now : Nat) (f : Faults) : SnapStore :=
  match analyze_logs p log store now f with
  | .ok (s, _) => s
  | .error _ => store

/-! ### Supporting lemmas about the counting and sorting helpers -/

lemma insertDescBy_perm {α : Type} (key : α → Nat) (x : α) (l : List α) :
    List.Perm (insertDescBy key x l) (x :: l) := by
  induction l with
  | nil => simp [insertDescBy]
  | cons y ys ih =>
    simp only [insertDescBy]
    split
    · exact List.Perm.refl _
    · exact (ih.cons y).trans (List.Perm.swap x y ys)

lemma sortDescBy_perm {α : Type} (key : α → Nat) (l : List α) :
    List.Perm (sortDescBy key l) l := by
  induction l with
  | nil => simp [sortDescBy]
  | cons x xs ih =>
    exact (insertDescBy_perm key x (sortDescBy key xs)).trans (ih.cons x)

lemma insertDescBy_pairwise {α : Type} (key : α → Nat) (x : α) {l : List α}
    (h : l.Pairwise (fun a b => key b ≤ key a)) :
    (insertDescBy key x l).Pairwise (fun a b => key b ≤ key a) := by
  induction l with
  | nil => simp [insertDescBy]
  | cons y ys ih =>
    rcases List.pairwise_cons.mp h with ⟨hy, hys⟩
    simp only [insertDescBy]
    split
    case isTrue hle =>
      refine List.pairwise_cons.mpr ⟨?_, h⟩
      intro z hz
      rcases List.mem_cons.mp hz with rfl | hz'
      · exact hle
      · exact le_trans (hy z hz') hle
    case isFalse hgt =>
      refine List.pairwise_cons.mpr ⟨?_, ih hys⟩
      intro z hz
      have hz' := (insertDescBy_perm key x ys).mem_iff.mp hz
      rcases List.mem_cons.mp hz' with rfl | hz''
      · exact Nat.le_of_lt (Nat.lt_of_not_le hgt)
      · exact hy z hz''

lemma sortDescBy_pairwise {α : Type} (key : α → Nat) (l : List α) :
    (sortDescBy key l).Pairwise (fun a b => key b ≤ key a) := by
  induction l with
  | nil => simp [sortDescBy]
  | cons x xs ih => exact insertDescBy_pairwise key x ih

lemma value_counts_perm {α : Type} [DecidableEq α] (xs : List α) :
    List.Perm (value_counts xs) (xs.dedup.map (fun k => (k, xs.count k))) :=
  sortDescBy_perm _ _

lemma mem_value_counts {α : Type} [DecidableEq α] {xs : List α} {kv : α × Nat} :
    kv ∈ value_counts xs ↔ kv.1 ∈ xs ∧ kv.2 = xs.count kv.1 := by
  obtain ⟨a, b⟩ := kv
  show (a, b) ∈ value_counts xs ↔ a ∈ xs ∧ b = xs.count a
  rw [(value_counts_perm xs).mem_iff, List.mem_map]
  constructor
  · rintro ⟨k, hk, h⟩
    injection h with h1 h2
    subst h1
    exact ⟨List.mem_dedup.mp hk, h2.symm⟩
  · rintro ⟨h1, rfl⟩
    exact ⟨a, List.mem_dedup.mpr h1, rfl⟩

lemma value_counts_keys_perm {α : Type} [DecidableEq α] (xs : List α) :
    List.Perm ((value_counts xs).map Prod.fst) xs.dedup := by
  have h := (value_counts_perm xs).map Prod.fst
  rw [List.map_map] at h
  have h2 : xs.dedup.map (Prod.fst ∘ fun k => (k, xs.count k)) = xs.dedup := by
    have hid : (Prod.fst ∘ fun k : α => (k, xs.count k)) = id := rfl
    rw [hid, List.map_id]
  rwa [h2] at h

lemma value_counts_sum {α : Type} [DecidableEq α] (xs : List α) :
    ((value_counts xs).map (fun kv => kv.2)).sum = xs.length := by
  have h := ((value_counts_perm xs).map (fun kv => kv.2)).sum_eq
  rw [h, List.map_map]
  simpa [Function.comp] using List.sum_map_count_dedup_eq_length xs

lemma value_counts_pairwise {α : Type} [DecidableEq α] (xs : List α) :
    (value_counts xs).Pairwise (fun a b => b.2 ≤ a.2) :=
  sortDescBy_pairwise (fun kv : α × Nat => kv.2) _

lemma value_counts_keys_nodup {α : Type} [DecidableEq α] (xs : List α) :
    ((value_counts xs).map Prod.fst).Nodup :=
  ((value_counts_keys_perm xs).nodup_iff).mpr (List.nodup_dedup xs)

lemma maxByValAux_mem (b : CategoryLabel × ℚ) (l : List (CategoryLabel × ℚ)) :
    maxByValAux b l ∈ b :: l := by
  induction l generalizing b with
  | nil => simp [maxByValAux]
  | cons y ys ih =>
    simp only [maxByValAux]
    split
    · exact List.mem_cons_of_mem b (ih y)
    · rcases List.mem_cons.mp (ih b) with h | h
      · exact List.mem_cons.mpr (.inl h)
      · exact List.mem_cons.mpr (.inr (List.mem_cons_of_mem y h))

lemma maxByValAux_ge (b : CategoryLabel × ℚ) (l : List (CategoryLabel × ℚ)) :
    ∀ z ∈ b :: l, z.2 ≤ (maxByValAux b l).2 := by
  induction l generalizing b with
  | nil =>
    intro z hz
    rw [List.mem_singleton] at hz
    subst hz
    simp [maxByValAux]
  | cons y ys ih =>
    intro z hz
    simp only [maxByValAux]
    by_cases h : b.2 < y.2
    · rw [if_pos h]
      rcases List.mem_cons.mp hz with h1 | h1
      · rw [h1]
        exact le_trans (le_of_lt h) (ih y y (List.mem_cons_self y ys))
      · exact ih y z h1
    · rw [if_neg h]
      rcases List.mem_cons.mp hz with h1 | h1
      · rw [h1]
        exact ih b b (List.mem_cons_self b ys)
      · rcases List.mem_cons.mp h1 with h2 | h2
        · rw [h2]
          exact le_trans (not_lt.mp h) (ih b b (List.mem_cons_self b ys))
        · exact ih b z (List.mem_cons_of_mem b h2)

lemma maxByVal_spec {l : List (CategoryLabel × ℚ)} (h : l ≠ []) :
    ∃ v, (maxByVal l, v) ∈ l ∧ ∀ kv ∈ l, kv.2 ≤ v := by
  cases l with
  | nil => exact absurd rfl h
  | cons x xs =>
    refine ⟨(maxByValAux x xs).2, ?_, maxByValAux_ge x xs⟩
    simpa [maxByVal] using maxByValAux_mem x xs

/-! ### Supporting lemmas about prediction -/

lemma argmaxBy_mem (f : CategoryLabel → ℚ) (b : CategoryLabel) (l : List CategoryLabel) :
    argmaxBy f b l ∈ b :: l := by
  induction l generalizing b with
  | nil => simp [argmaxBy]
  | cons k ks ih =>
    simp only [argmaxBy]
    split
    · exact List.mem_cons_of_mem b (ih k)
    · rcases List.mem_cons.mp (ih b) with h | h
      · exact List.mem_cons.mpr (.inl h)
      · exact List.mem_cons.mpr (.inr (List.mem_cons_of_mem k h))

lemma argmaxBy_ge (f : CategoryLabel → ℚ) (b : CategoryLabel) (l : List CategoryLabel) :
    ∀ k ∈ b :: l, f k ≤ f (argmaxBy f b l) := by
  induction l generalizing b with
  | nil =>
    intro k hk
    rw [List.mem_singleton] at hk
    rw [hk]
    simp [argmaxBy]
  | cons y ys ih =>
    intro k hk
    simp only [argmaxBy]
    by_cases h : f b < f y
    · rw [if_pos h]
      rcases List.mem_cons.mp hk with h1 | h1
      · rw [h1]
        exact le_trans (le_of_lt h) (ih y y (List.mem_cons_self y ys))
      · exact ih y k h1
    · rw [if_neg h]
      rcases List.mem_cons.mp hk with h1 | h1
      · rw [h1]
        exact ih b b (List.mem_cons_self b ys)
      · rcases List.mem_cons.mp h1 with h2 | h2
        · rw [h2]
          exact le_trans (not_lt.mp h) (ih b b (List.mem_cons_self b ys))
        · exact ih b k (List.mem_cons_of_mem b h2)

lemma le_foldl_max (a : ℚ) (l : List ℚ) : a ≤ l.foldl max a := by
  induction l generalizing a with
  | nil => simp
  | cons y ys ih =>
    simp only [List.foldl_cons]
    exact le_trans (le_max_left a y) (ih (max a y))

lemma foldl_max_ge (a : ℚ) (l : List ℚ) : ∀ x ∈ l, x ≤ l.foldl max a := by
  induction l generalizing a with
  | nil => intro x hx; cases hx
  | cons y ys ih =>
    intro x hx
    simp only [List.foldl_cons]
    rcases List.mem_cons.mp hx with h1 | h1
    · rw [h1]
      exact le_trans (le_max_right a y) (le_foldl_max (max a y) ys)
    · exact ih (max a y) x h1

lemma foldl_max_mem (a : ℚ) (l : List ℚ) : l.foldl max a = a ∨ l.foldl max a ∈ l := by
  induction l generalizing a with
  | nil => exact .inl rfl
  | cons y ys ih =>
    simp only [List.foldl_cons]
    rcases ih (max a y) with h | h
    · rcases max_choice a y with h2 | h2
      · exact .inl (by rw [h, h2])
      · exact .inr (by rw [h, h2]; exact List.mem_cons_self y ys)
    · exact .inr (List.mem_cons_of_mem y h)

lemma listMaxQ_eq_of {l : List ℚ} {m : ℚ} (hm : m ∈ l) (hall : ∀ x ∈ l, x ≤ m) :
    listMaxQ l = m := by
  cases l with
  | nil => cases hm
  | cons x xs =>
    simp only [listMaxQ]
    refine le_antisymm ?_ ?_
    · rcases foldl_max_mem x xs with h | h
      · rw [h]
        exact hall x (List.mem_cons_self x xs)
      · exact hall _ (List.mem_cons_of_mem x h)
    · rcases List.mem_cons.mp hm with h1 | h1
      · rw [h1]
        exact le_foldl_max x xs
      · exact foldl_max_ge x xs m h1

lemma jointScore_pos {p : NBPipeline} (h : Wellformed p) {k : CategoryLabel}
    (hk : k ∈ classesSorted) (cmd : String) : 0 < jointScore p cmd k := by
  obtain ⟨hp, ht⟩ := h k hk
  refine mul_pos hp (List.prod_pos ?_)
  intro a ha
  rcases List.mem_map.mp ha with ⟨g, hg, rfl⟩
  exact pow_pos (ht g hg) _

lemma totalScore_pos {p : NBPipeline} (h : Wellformed p) (cmd : String) :
    0 < totalScore p cmd := by
  apply List.sum_pos
  · intro x hx
    rcases List.mem_map.mp hx with ⟨k, hk, rfl⟩
    exact jointScore_pos h hk cmd
  · simp [classesSorted]

lemma sum_predictProba {p : NBPipeline} (h : Wellformed p) (cmd : String) :
    (classesSorted.map (predictProba p cmd)).sum = 1 := by
  have hT := totalScore_pos h cmd
  have hmap : classesSorted.map (predictProba p cmd)
      = classesSorted.map (fun k => jointScore p cmd k * (totalScore p cmd)⁻¹) := by
    simp [predictProba, div_eq_mul_inv]
  rw [hmap, List.sum_map_mul_right]
  exact mul_inv_cancel₀ (ne_of_gt hT)

lemma predictCat_mem (p : NBPipeline) (cmd : String) :
    predictCat p cmd ∈ classesSorted :=
  argmaxBy_mem (jointScore p cmd) .data_exfiltration
    [.lateral_movement, .miscellaneous, .persistence, .privilege_escalation, .reconnaissance]

lemma jointScore_le_predictCat (p : NBPipeline) (cmd : String) :
    ∀ k ∈ classesSorted, jointScore p cmd k ≤ jointScore p cmd (predictCat p cmd) :=
  argmaxBy_ge (jointScore p cmd) .data_exfiltration
    [.lateral_movement, .miscellaneous, .persistence, .privilege_escalation, .reconnaissance]

lemma predictProba_le_predictCat {p : NBPipeline} (h : Wellformed p) (cmd : String) :
    ∀ k ∈ classesSorted, predictProba p cmd k ≤ predictProba p cmd (predictCat p cmd) := by
  intro k hk
  have hT := totalScore_pos h cmd
  exact div_le_div_of_nonneg_right (jointScore_le_predictCat p cmd k hk) (le_of_lt hT)

lemma batch_categories (p : NBPipeline) (commands : List String) :
    (batch_predict p commands).map (fun pr => pr.category)
      = commands.map (fun c => predictCat p c) := by
  simp only [batch_predict, List.map_map]
  rfl

lemma batch_filter_commands (p : NBPipeline) (commands : List String) (cat : CategoryLabel) :
    ((batch_predict p commands).filter (fun pr => pr.category = cat)).map (fun pr => pr.command)
      = commands.filter (fun c => predictCat p c = cat) := by
  induction commands with
  | nil => rfl
  | cons c cs ih =>
    simp only [batch_predict, List.map_cons, List.filter_cons] at ih ⊢
    by_cases h : predictCat p c = cat
    · simp only [predict, h]
      simp [ih]
    · simp only [predict, h]
      simp [ih, h]

lemma get_insights_eq (p : NBPipeline) {commands : List String} (h : commands ≠ []) :
    get_insights p commands = .report
      { total_commands := commands.length
        category_counts := value_counts (commands.map (fun c => predictCat p c))
        category_percentages := (value_counts (commands.map (fun c => predictCat p c))).map
          (fun kv => (kv.1, ((kv.2 : ℚ) / (commands.length : ℚ)) * 100))
        top_commands_by_category := (commands.map (fun c => predictCat p c)).dedup.map
          (fun cat =>
            (cat, (value_counts (commands.filter (fun c => predictCat p c = cat))).take 5))
        attack_focus := maxByVal ((value_counts (commands.map (fun c => predictCat p c))).map
          (fun kv => (kv.1, ((kv.2 : ℚ) / (commands.length : ℚ)) * 100))) } := by
  simp only [get_insights, if_neg h, batch_categories, batch_filter_commands, List.length_map,
    List.map_map]
  rfl

/-! ### Supporting lemmas about snapshot retention -/

lemma cleanup_length_le (s : SnapStore) :
    (cleanup_old_insights s).snaps.length ≤ MAX_STORED_INSIGHTS := by
  have hlen := (sortDescBy_perm (fun f => f.mtime) s.snaps).length_eq
  simp only [cleanup_old_insights]
  split
  case isTrue h => simp [List.length_take]
  case isFalse h => omega

lemma cleanup_length_eq (s : SnapStore) :
    (cleanup_old_insights s).snaps.length = min s.snaps.length MAX_STORED_INSIGHTS := by
  have hlen := (sortDescBy_perm (fun f => f.mtime) s.snaps).length_eq
  simp only [cleanup_old_insights]
  split
  case isTrue h => simp only [List.length_take]; omega
  case isFalse h => omega

lemma cleanup_subset (s : SnapStore) :
    ∀ x ∈ (cleanup_old_insights s).snaps, x ∈ s.snaps := by
  simp only [cleanup_old_insights]
  split
  case isTrue h =>
    intro x hx
    have hx' := List.take_subset _ _ hx
    exact (sortDescBy_perm (fun f => f.mtime) s.snaps).mem_iff.mp hx'
  case isFalse h => intro x hx; exact hx

lemma cleanup_deleted_oldest (s : SnapStore) :
    ∀ d ∈ s.snaps, d ∉ (cleanup_old_insights s).snaps →
      ∀ k ∈ (cleanup_old_insights s).snaps, d.mtime ≤ k.mtime := by
  simp only [cleanup_old_insights]
  split
  case isTrue h =>
    intro d hd hdn k hk
    simp only at hdn hk
    have hds : d ∈ sortDescBy (fun f => f.mtime) s.snaps :=
      (sortDescBy_perm (fun f => f.mtime) s.snaps).mem_iff.mpr hd
    have hpw := sortDescBy_pairwise (fun f => f.mtime) s.snaps
    rw [← List.take_append_drop MAX_STORED_INSIGHTS
      (sortDescBy (fun f => f.mtime) s.snaps)] at hpw hds
    rcases List.pairwise_append.mp hpw with ⟨_, _, hrel⟩
    rcases List.mem_append.mp hds with h1 | h2
    · exact absurd h1 hdn
    · exact hrel k hk d h2
  case isFalse h =>
    intro d hd hdn
    exact absurd hd hdn

lemma cleanup_latest (s : SnapStore) :
    (cleanup_old_insights s).latest = s.latest := by
  simp only [cleanup_old_insights]
  split <;> rfl

/-! ### Claim theorems -/

/-- Pipeline used to instantiate witnesses: an empty vocabulary with unit
weights, trivially wellformed. -/
def witPipeline : NBPipeline :=
  { vocab := [], prior := fun _ => 1, theta := fun _ _ => 1 }

/-- A readable log holding ten matching command lines. -/
def witLog : LogFile :=
  .ok (List.replicate 10 "Command b\x27ls\x27executed by 1.2.3.4")

/-- C7: for every pair of lists of different lengths, `train` fails with the
`InvalidInput` error and produces no new model state (the caller's pipeline is
only replaced by an `.ok` result, which mismatched lengths never yield). -/
theorem C7_train_mismatched_lengths (p : NBPipeline) (commands : List String)
    (categories : List CategoryLabel) (h : commands.length ≠ categories.length) :
    train p commands categories = .error .invalidInput ∧
      ∀ q : NBPipeline, train p commands categories ≠ .ok q := by
  have heq : train p commands categories = .error .invalidInput := by
    simp only [train, pipelineFit, if_neg h]
  refine ⟨heq, fun q hq => ?_⟩
  rw [heq] at hq
  cases hq

/-- Witness for C7 at a concrete mismatched pair. -/
theorem C7_witness :
    (["ls"].length ≠ ([] : List CategoryLabel).length) ∧
      train witPipeline ["ls"] [] = .error .invalidInput :=
  ⟨by decide, (C7_train_mismatched_lengths witPipeline ["ls"] [] (by decide)).1⟩

/-- C8: `batch_predict` returns one prediction per command, in input order,
and the i-th prediction is exactly `predict` of the i-th command alone. -/
theorem C8_batch_predict_pointwise (p : NBPipeline) (commands : List String) :
    (batch_predict p commands).length = commands.length ∧
      ∀ i : Nat, (batch_predict p commands)[i]? = (commands[i]?).map (predict p) := by
  constructor
  · simp [batch_predict]
  · intro i
    simp [batch_predict]

/-- C9: saving a trained pipeline and loading it back from the same path on a
fresh instance yields identical `predict` output on every command. -/
theorem C9_save_load_roundtrip (fs : FileStore) (path : String) (p : NBPipeline)
    (cmd : String) :
    predict (load_model (save_model fs path p) path) cmd = predict p cmd := by
  simp [load_model, save_model]

/-- C5: `get_insights` on the empty list returns the status-only `noData`
result, distinct from every populated report, and `analyze_logs` with fewer
extracted commands than `MIN_COMMANDS_FOR_ANALYSIS` returns the status result
and leaves the analytics directory untouched (no snapshot write, no latest
update, no deletion). -/
theorem C5_insufficient_data (p : NBPipeline) (log : LogFile) (store : SnapStore)
    (now : Nat) (f : Faults)
    (h : (parse_command_log log).length < MIN_COMMANDS_FOR_ANALYSIS) :
    get_insights p [] = .noData ∧
      (∀ r : InsightReport, get_insights p [] ≠ .report r) ∧
      analyze_logs p log store now f
        = .ok (store, .insufficient (parse_command_log log).length) := by
  refine ⟨rfl, ?_, ?_⟩
  · intro r hr
    rw [show get_insights p [] = .noData from rfl] at hr
    cases hr
  · simp only [analyze_logs]
    rw [if_pos (Or.inr h)]

/-- Witness for C5 at an empty log. -/
theorem C5_witness :
    (parse_command_log (.ok [])).length < MIN_COMMANDS_FOR_ANALYSIS ∧
      analyze_logs witPipeline (.ok []) ⟨[], none⟩ 0 ⟨false, false⟩
        = .ok (⟨[], none⟩, .insufficient (parse_command_log (.ok [])).length) :=
  ⟨by decide,
    (C5_insufficient_data witPipeline (.ok []) ⟨[], none⟩ 0 ⟨false, false⟩ (by decide)).2.2⟩

/-- C2 counterexample: an unexpected exception inside the
`classifier.get_insights(commands)` call is not caught by `analyze_logs` —
with ten commands parsed and a fault injected at the classification step, the
call propagates the exception to its caller. -/
theorem C2_counterexample :
    analyze_logs witPipeline witLog ⟨[], none⟩ 7 ⟨true, false⟩ = .error () := by
  rfl

/-- C2 (amended): exceptions during parsing are caught inside
`parse_command_log` and exceptions during persistence are caught inside
`analyze_logs`, so the only way `analyze_logs` can propagate an exception is a
fault in the classification/aggregation step, which only the background
loop's `try` catches. -/
theorem C2_amended_containment (p : NBPipeline) (log : LogFile) (store : SnapStore)
    (now : Nat) (f : Faults) (e : Unit)
    (h : analyze_logs p log store now f = .error e) :
    f.insightsFault = true := by
  simp only [analyze_logs] at h
  by_cases h1 : (parse_command_log log = []
      ∨ (parse_command_log log).length < MIN_COMMANDS_FOR_ANALYSIS)
  · rw [if_pos h1] at h
    cases h
  · rw [if_neg h1] at h
    by_contra hins
    rw [Bool.not_eq_true] at hins
    simp only [hins, Bool.false_eq_true, if_false] at h
    by_cases h2 : f.saveFault = true
    · rw [if_pos h2] at h
      cases h
    · rw [if_neg h2] at h
      cases h

/-- Witness for C2 (amended) at the concrete erroring input. -/
theorem C2_witness : (Faults.mk true false).insightsFault = true :=
  C2_amended_containment witPipeline witLog ⟨[], none⟩ 7 ⟨true, false⟩ () (by rfl)

/-- C3 counterexample: a read failure occurring after a matching line has
been yielded is caught, but the commands accumulated so far are returned —
the result is not the empty sequence the claim requires. -/
theorem C3_counterexample :
    parse_command_log (.failAfter ["Command b\x27ls -la\x27executed by 10.0.0.5"])
        = ["ls -la"] ∧
      parse_command_log (.failAfter ["Command b\x27ls -la\x27executed by 10.0.0.5"])
        ≠ [] := by
  constructor
  · rfl
  · decide

/-- C3 (amended): the parser extracts, in file order, exactly one command per
line matching `Command b'<text>'executed by <IPv4>` (the spec's example line
included), non-matching lines contribute nothing, a missing file yields the
empty sequence without raising, and any mid-read failure is caught and yields
the commands extracted from the prefix of lines read before the failure
(empty when the failure precedes any matching line). -/
theorem C3_amended_parse (lines₁ lines₂ : List String) (bad good c : String)
    (hbad : parseLine bad = none) (hgood : parseLine good = some c) :
    parse_command_log .missing = [] ∧
      parseLine "Command b\x27ls -la\x27executed by 10.0.0.5" = some "ls -la" ∧
      parse_command_log (.ok (lines₁ ++ bad :: lines₂))
        = parse_command_log (.ok lines₁) ++ parse_command_log (.ok lines₂) ∧
      parse_command_log (.ok (lines₁ ++ good :: lines₂))
        = parse_command_log (.ok lines₁) ++ c :: parse_command_log (.ok lines₂) ∧
      parse_command_log (.failAfter lines₁) = parse_command_log (.ok lines₁) := by
  refine ⟨rfl, by decide, ?_, ?_, rfl⟩
  · simp [parse_command_log, extract_commands, List.filterMap_append, List.filterMap_cons, hbad]
  · simp [parse_command_log, extract_commands, List.filterMap_append, List.filterMap_cons, hgood]

/-- Witness for C3 (amended) at a concrete skipped line and a concrete
matching line. -/
theorem C3_witness :
    parseLine "hello" = none ∧
      parse_command_log (.ok (["x"] ++ "hello" :: ["y"]))
        = parse_command_log (.ok ["x"]) ++ parse_command_log (.ok ["y"]) :=
  ⟨by decide,
    (C3_amended_parse ["x"] ["y"] "hello" "Command b\x27id\x27executed by 8.8.8.8" "id"
      (by decide) (by decide)).2.2.1⟩

/-- C4: after a fault-free analysis cycle with enough commands, the returned
store holds at most `MAX_STORED_INSIGHTS` snapshot files; the kept files are
exactly drawn from the files present after the snapshot write, every deleted
file is at least as old (by modification time) as every kept file, and the
fixed-name latest file holds the content of this cycle's write. -/
theorem C4_retention (p : NBPipeline) (log : LogFile) (store : SnapStore) (now : Nat)
    (f : Faults) (hins : f.insightsFault = false) (hsave : f.saveFault = false)
    (hmin : MIN_COMMANDS_FOR_ANALYSIS ≤ (parse_command_log log).length) :
    ∃ store₂ : SnapStore,
      analyze_logs p log store now f
        = .ok (store₂, .analyzed (get_insights p (parse_command_log log))) ∧
      store₂.snaps.length ≤ MAX_STORED_INSIGHTS ∧
      store₂.snaps.length
        = min (writeInsightsFile store.snaps now
            (get_insights p (parse_command_log log))).length MAX_STORED_INSIGHTS ∧
      (∀ x ∈ store₂.snaps,
        x ∈ writeInsightsFile store.snaps now (get_insights p (parse_command_log log))) ∧
      (∀ d ∈ writeInsightsFile store.snaps now (get_insights p (parse_command_log log)),
        d ∉ store₂.snaps → ∀ k ∈ store₂.snaps, d.mtime ≤ k.mtime) ∧
      store₂.latest = some (get_insights p (parse_command_log log)) := by
  have hne : ¬(parse_command_log log = []
      ∨ (parse_command_log log).length < MIN_COMMANDS_FOR_ANALYSIS) := by
    rintro (h1 | h2)
    · rw [h1] at hmin
      simp [MIN_COMMANDS_FOR_ANALYSIS] at hmin
    · omega
  refine ⟨cleanup_old_insights
      ⟨writeInsightsFile store.snaps now (get_insights p (parse_command_log log)),
        some (get_insights p (parse_command_log log))⟩, ?_, ?_, ?_, ?_, ?_, ?_⟩
  · simp only [analyze_logs, if_neg hne, hins, hsave, Bool.false_eq_true, if_false]
  · exact cleanup_length_le _
  · exact cleanup_length_eq _
  · exact cleanup_subset _
  · exact cleanup_deleted_oldest
      ⟨writeInsightsFile store.snaps now (get_insights p (parse_command_log log)),
        some (get_insights p (parse_command_log log))⟩
  · rw [cleanup_latest]

/-- Witness for C4 with ten parsed commands and an initially empty store. -/
theorem C4_witness :
    MIN_COMMANDS_FOR_ANALYSIS ≤ (parse_command_log witLog).length ∧
      ∃ store₂ : SnapStore,
        analyze_logs witPipeline witLog ⟨[], none⟩ 7 ⟨false, false⟩
          = .ok (store₂, .analyzed (get_insights witPipeline (parse_command_log witLog))) ∧
        store₂.snaps.length ≤ MAX_STORED_INSIGHTS ∧
        store₂.snaps.length
          = min (writeInsightsFile (SnapStore.mk [] none).snaps 7
              (get_insights witPipeline (parse_command_log witLog))).length
              MAX_STORED_INSIGHTS ∧
        (∀ x ∈ store₂.snaps,
          x ∈ writeInsightsFile (SnapStore.mk [] none).snaps 7
            (get_insights witPipeline (parse_command_log witLog))) ∧
        (∀ d ∈ writeInsightsFile (SnapStore.mk [] none).snaps 7
            (get_insights witPipeline (parse_command_log witLog)),
          d ∉ store₂.snaps → ∀ k ∈ store₂.snaps, d.mtime ≤ k.mtime) ∧
        store₂.latest = some (get_insights witPipeline (parse_command_log witLog)) :=
  ⟨by decide, C4_retention witPipeline witLog ⟨[], none⟩ 7 ⟨false, false⟩ rfl rfl (by decide)⟩

/-- C6: for every wellformed model and every command (the empty string
included), `predict` returns a distribution keyed by exactly the six fixed
categories whose values are non-negative and sum to 1, a predicted category
among the six whose probability is maximal, and a confidence equal to that
maximal probability. -/
theorem C6_predict_distribution (p : NBPipeline) (cmd : String) (h : Wellformed p) :
    (∀ k : CategoryLabel, k ∈ classesSorted) ∧
      (predict p cmd).all_probabilities.map Prod.fst = classesSorted ∧
      (∀ kv ∈ (predict p cmd).all_probabilities, 0 ≤ kv.2) ∧
      ((predict p cmd).all_probabilities.map (fun kv => kv.2)).sum = 1 ∧
      (predict p cmd).category ∈ classesSorted ∧
      (predict p cmd).confidence = predictProba p cmd (predict p cmd).category ∧
      (∀ kv ∈ (predict p cmd).all_probabilities, kv.2 ≤ (predict p cmd).confidence) := by
  have hT := totalScore_pos h cmd
  have hconf : (predict p cmd).confidence = predictProba p cmd (predictCat p cmd) := by
    show listMaxQ (classesSorted.map (predictProba p cmd)) = _
    refine listMaxQ_eq_of ?_ ?_
    · exact List.mem_map.mpr ⟨predictCat p cmd, predictCat_mem p cmd, rfl⟩
    · intro x hx
      rcases List.mem_map.mp hx with ⟨k, hk, rfl⟩
      exact predictProba_le_predictCat h cmd k hk
  refine ⟨?_, ?_, ?_, ?_, predictCat_mem p cmd, hconf, ?_⟩
  · intro k
    cases k <;> simp [classesSorted]
  · show (classesSorted.map (fun k => (k, predictProba p cmd k))).map Prod.fst = classesSorted
    rw [List.map_map]
    have hid : (Prod.fst ∘ fun k : CategoryLabel => (k, predictProba p cmd k)) = id := rfl
    rw [hid, List.map_id]
  · intro kv hkv
    rcases List.mem_map.mp hkv with ⟨k, hk, rfl⟩
    exact div_nonneg (le_of_lt (jointScore_pos h hk cmd)) (le_of_lt hT)
  · show ((classesSorted.map (fun k => (k, predictProba p cmd k))).map
        (fun kv => kv.2)).sum = 1
    rw [List.map_map]
    have hcomp : ((fun kv : CategoryLabel × ℚ => kv.2)
        ∘ fun k => (k, predictProba p cmd k)) = predictProba p cmd := rfl
    rw [hcomp]
    exact sum_predictProba h cmd
  · intro kv hkv
    rcases List.mem_map.mp hkv with ⟨k, hk, rfl⟩
    rw [hconf]
    exact predictProba_le_predictCat h cmd k hk

/-- Witness for C6 at the empty command. -/
theorem C6_witness :
    Wellformed witPipeline ∧
      ((predict witPipeline "").all_probabilities.map (fun kv => kv.2)).sum = 1 ∧
      (predict witPipeline "").confidence
        = predictProba witPipeline "" (predict witPipeline "").category := by
  have h := C6_predict_distribution witPipeline "" (by decide)
  exact ⟨by decide, h.2.2.2.1, h.2.2.2.2.2.1⟩

/-- C1: on a non-empty command list, `get_insights` returns a populated
report: the total is the number of commands; every category count is the
number of commands classified into that category; each percentage is
`count / total * 100`; the percentages sum to exactly 100 (the embedding uses
exact rationals, so the float tolerance is not needed); `attack_focus`
carries the maximal percentage; and each category's top commands list has at
most 5 distinct entries ordered by descending frequency, each a command
classified into that category with its exact frequency there. -/
theorem C1_insights_report (p : NBPipeline) (commands : List String)
    (h : commands ≠ []) :
    ∃ r : InsightReport, get_insights p commands = .report r ∧
      r.total_commands = commands.length ∧
      (∀ k : CategoryLabel, k ∈ r.category_counts.map Prod.fst
        ↔ k ∈ commands.map (fun c => predictCat p c)) ∧
      (∀ k : CategoryLabel, k ∈ r.top_commands_by_category.map Prod.fst
        ↔ k ∈ commands.map (fun c => predictCat p c)) ∧
      (∀ kv ∈ r.category_counts,
        kv.2 = (commands.map (fun c => predictCat p c)).count kv.1) ∧
      r.category_percentages = r.category_counts.map
        (fun kv => (kv.1, ((kv.2 : ℚ) / (r.total_commands : ℚ)) * 100)) ∧
      (r.category_percentages.map (fun kv => kv.2)).sum = 100 ∧
      (∃ vmax : ℚ, (r.attack_focus, vmax) ∈ r.category_percentages ∧
        ∀ kv ∈ r.category_percentages, kv.2 ≤ vmax) ∧
      (∀ ct ∈ r.top_commands_by_category,
        ct.2.length ≤ 5 ∧
        ct.2.Pairwise (fun a b => b.2 ≤ a.2) ∧
        (ct.2.map Prod.fst).Nodup ∧
        ∀ cn ∈ ct.2, predictCat p cn.1 = ct.1 ∧ cn.1 ∈ commands ∧
          cn.2 = (commands.filter (fun c => predictCat p c = ct.1)).count cn.1 ∧
          0 < cn.2) := by
  have hn0 : 0 < commands.length := List.length_pos.mpr h
  have hnQ : (commands.length : ℚ) ≠ 0 := by
    exact_mod_cast Nat.pos_iff_ne_zero.mp hn0
  have hcats_ne : commands.map (fun c => predictCat p c) ≠ [] := by
    simpa [List.map_eq_nil_iff] using h
  have hcounts_ne : value_counts (commands.map (fun c => predictCat p c)) ≠ [] := by
    intro hnil
    have hs := value_counts_sum (commands.map (fun c => predictCat p c))
    rw [hnil] at hs
    simp at hs
    exact h (List.length_eq_zero.mp hs.symm)
  rw [get_insights_eq p h]
  refine ⟨_, rfl, rfl, ?_, ?_, ?_, rfl, ?_, ?_, ?_⟩
  · intro k
    rw [(value_counts_keys_perm _).mem_iff, List.mem_dedup]
  · intro k
    have hk : (((commands.map fun c => predictCat p c).dedup).map
        (fun cat => (cat,
          (value_counts (commands.filter fun c => predictCat p c = cat)).take 5))).map Prod.fst
        = (commands.map fun c => predictCat p c).dedup := by
      rw [List.map_map]
      exact List.map_id _
    rw [hk, List.mem_dedup]
  · intro kv hkv
    exact (mem_value_counts.mp hkv).2
  · rw [List.map_map]
    have hfun : ((fun kv : CategoryLabel × ℚ => kv.2)
        ∘ fun kv : CategoryLabel × Nat => (kv.1, ((kv.2 : ℚ) / (commands.length : ℚ)) * 100))
        = fun kv : CategoryLabel × Nat => ((kv.2 : ℚ)) * ((100 : ℚ) / (commands.length : ℚ)) := by
      funext kv
      show ((kv.2 : ℚ) / (commands.length : ℚ)) * 100
        = (kv.2 : ℚ) * ((100 : ℚ) / (commands.length : ℚ))
      ring
    rw [hfun, List.sum_map_mul_right]
    have hcast : ((value_counts (commands.map (fun c => predictCat p c))).map
        (fun kv : CategoryLabel × Nat => ((kv.2 : ℕ) : ℚ))).sum
        = ((commands.length : ℕ) : ℚ) := by
      have hcomp : ((value_counts (commands.map (fun c => predictCat p c))).map
          (fun kv : CategoryLabel × Nat => ((kv.2 : ℕ) : ℚ)))
          = ((value_counts (commands.map (fun c => predictCat p c))).map
              (fun kv => kv.2)).map (fun m : ℕ => (m : ℚ)) := by
        rw [List.map_map]
        rfl
      rw [hcomp, ← Nat.cast_list_sum, value_counts_sum, List.length_map]
    rw [hcast]
    field_simp
  · apply maxByVal_spec
    intro hnil
    rw [List.map_eq_nil_iff] at hnil
    exact hcounts_ne hnil
  · intro ct hct
    rcases List.mem_map.mp hct with ⟨cat, _, rfl⟩
    refine ⟨List.length_take_le 5 _, ?_, ?_, ?_⟩
    · exact List.Pairwise.sublist (List.take_sublist 5 _) (value_counts_pairwise _)
    · exact List.Nodup.sublist (List.Sublist.map Prod.fst (List.take_sublist 5 _))
        (value_counts_keys_nodup _)
    · intro cn hcn
      have hcn' : cn ∈ value_counts (commands.filter (fun c => predictCat p c = cat)) :=
        List.take_subset 5 _ hcn
      obtain ⟨hmem, hcount⟩ := mem_value_counts.mp hcn'
      obtain ⟨hmem1, hmem2⟩ := List.mem_filter.mp hmem
      have h1 : predictCat p cn.1 = cat := of_decide_eq_true hmem2
      refine ⟨h1, hmem1, hcount, ?_⟩
      rw [hcount]
      exact List.count_pos_iff.mpr hmem

/-- Witness for C1 at a concrete non-empty command list. -/
theorem C1_witness :
    (["ls", "pwd"] ≠ ([] : List String)) ∧
      ∃ r : InsightReport, get_insights witPipeline ["ls", "pwd"] = .report r ∧
        r.total_commands = ["ls", "pwd"].length ∧
        (∀ k : CategoryLabel, k ∈ r.category_counts.map Prod.fst
          ↔ k ∈ ["ls", "pwd"].map (fun c => predictCat witPipeline c)) ∧
        (∀ k : CategoryLabel, k ∈ r.top_commands_by_category.map Prod.fst
          ↔ k ∈ ["ls", "pwd"].map (fun c => predictCat witPipeline c)) ∧
        (∀ kv ∈ r.category_counts,
          kv.2 = (["ls", "pwd"].map (fun c => predictCat witPipeline c)).count kv.1) ∧
        r.category_percentages = r.category_counts.map
          (fun kv => (kv.1, ((kv.2 : ℚ) / (r.total_commands : ℚ)) * 100)) ∧
        (r.category_percentages.map (fun kv => kv.2)).sum = 100 ∧
        (∃ vmax : ℚ, (r.attack_focus, vmax) ∈ r.category_percentages ∧
          ∀ kv ∈ r.category_percentages, kv.2 ≤ vmax) ∧
        (∀ ct ∈ r.top_commands_by_category,
          ct.2.length ≤ 5 ∧
          ct.2.Pairwise (fun a b => b.2 ≤ a.2) ∧
          (ct.2.map Prod.fst).Nodup ∧
          ∀ cn ∈ ct.2, predictCat witPipeline cn.1 = ct.1 ∧ cn.1 ∈ ["ls", "pwd"] ∧
            cn.2 = (["ls", "pwd"].filter
              (fun c => predictCat witPipeline c = ct.1)).count cn.1 ∧
            0 < cn.2) :=
  ⟨by decide, C1_insights_report witPipeline ["ls", "pwd"] (by decide)⟩

/-- C10: in a populated report the key sets of `category_counts`,
`category_percentages` and `top_commands_by_category` are exactly the
categories receiving at least one prediction, every stored count is positive
(absent categories are omitted, never zero), and the counts sum to
`total_commands`. -/
theorem C10_observed_categories (p : NBPipeline) (commands : List String)
    (h : commands ≠ []) :
    ∃ r : InsightReport, get_insights p commands = .report r ∧
      (∀ k : CategoryLabel, k ∈ r.category_counts.map Prod.fst
        ↔ k ∈ commands.map (fun c => predictCat p c)) ∧
      (∀ k : CategoryLabel, k ∈ r.category_percentages.map Prod.fst
        ↔ k ∈ commands.map (fun c => predictCat p c)) ∧
      (∀ k : CategoryLabel, k ∈ r.top_commands_by_category.map Prod.fst
        ↔ k ∈ commands.map (fun c => predictCat p c)) ∧
      (∀ kv ∈ r.category_counts, 0 < kv.2) ∧
      (r.category_counts.map (fun kv => kv.2)).sum = r.total_commands ∧
      r.total_commands = commands.length := by
  rw [get_insights_eq p h]
  refine ⟨_, rfl, ?_, ?_, ?_, ?_, ?_, rfl⟩
  · intro k
    rw [(value_counts_keys_perm _).mem_iff, List.mem_dedup]
  · intro k
    have hk : ((value_counts (commands.map fun c => predictCat p c)).map
        (fun kv => (kv.1, ((kv.2 : ℚ) / (commands.length : ℚ)) * 100))).map Prod.fst
        = (value_counts (commands.map fun c => predictCat p c)).map Prod.fst := by
      rw [List.map_map]
      rfl
    rw [hk, (value_counts_keys_perm _).mem_iff, List.mem_dedup]
  · intro k
    have hk : (((commands.map fun c => predictCat p c).dedup).map
        (fun cat => (cat,
          (value_counts (commands.filter fun c => predictCat p c = cat)).take 5))).map Prod.fst
        = (commands.map fun c => predictCat p c).dedup := by
      rw [List.map_map]
      exact List.map_id _
    rw [hk, List.mem_dedup]
  · intro kv hkv
    obtain ⟨hmem, hcount⟩ := mem_value_counts.mp hkv
    rw [hcount]
    exact List.count_pos_iff.mpr hmem
  · simpa using value_counts_sum (commands.map fun c => predictCat p c)

/-- Witness for C10 at a concrete non-empty command list. -/
theorem C10_witness :
    (["ls"] ≠ ([] : List String)) ∧
      ∃ r : InsightReport, get_insights witPipeline ["ls"] = .report r ∧
        (∀ k : CategoryLabel, k ∈ r.category_counts.map Prod.fst
          ↔ k ∈ ["ls"].map (fun c => predictCat witPipeline c)) ∧
        (∀ k : CategoryLabel, k ∈ r.category_percentages.map Prod.fst
          ↔ k ∈ ["ls"].map (fun c => predictCat witPipeline c)) ∧
        (∀ k : CategoryLabel, k ∈ r.top_commands_by_category.map Prod.fst
          ↔ k ∈ ["ls"].map (fun c => predictCat witPipeline c)) ∧
        (∀ kv ∈ r.category_counts, 0 < kv.2) ∧
        (r.category_counts.map (fun kv => kv.2)).sum = r.total_commands ∧
        r.total_commands = ["ls"].length :=
  ⟨by decide, C10_observed_categories witPipeline ["ls"] (by decide)⟩
